import Mathlib

/-!
# Verification of the emukit notebooks' implied optimization-loop core

The repository ships example notebooks that exercise the emukit library:
parameter spaces with continuous, discrete and categorical (one-hot encoded)
parameters, a Bayesian-optimization loop `run_loop` driven by a
fixed-iterations stopping condition, and optional context variables that pin
some parameters to constant values during a run.  The library code itself is
not part of the examined sources, so the core is modelled here from the
specification and checked against it and against the notebooks' usage.

Numeric values are modelled as rationals (`ℚ`): the notebooks' literals
(`0.3`, `-5`, `15`, …) are exact decimal values and no floating-point
behaviour is at issue in the claims.
-/

set_option autoImplicit false

/-- Modelled from the spec: the error taxonomy of §7 for the missing emukit
core (`InvalidValue`, `DimensionMismatch`, `UnknownParameter`,
`InvalidEncoding`, `InfeasibleContext`, `OptimizationFailure`,
`ModelUpdateFailure`, `ObjectiveEvaluationFailure`). -/
inductive EmukitError where
  | invalidValue
  | dimensionMismatch
  | unknownParameter
  | invalidEncoding
  | infeasibleContext
  | optimizationFailure
  | modelUpdateFailure
  | objectiveEvaluationFailure
  deriving DecidableEq

/-- Modelled from the spec: a `Parameter` is a single tunable dimension —
`Continuous{name, lower, upper}`, `Discrete{name, ordered set of allowed
values}`, or `Categorical{name, Encoding}`; for a categorical parameter the
one-hot encoding is determined by its ordered list of category labels. -/
inductive Parameter where
  | continuous (pname : String) (lower upper : ℚ)
  | discrete (pname : String) (values : List ℚ)
  | categorical (pname : String) (categories : List String)
  deriving DecidableEq

/-- Modelled from the spec: a named value for one parameter — a number for a
continuous or discrete parameter, a category label for a categorical one. -/
inductive ParamValue where
  | num (x : ℚ)
  | cat (c : String)
  deriving DecidableEq

/-- The name of a parameter. -/
def Parameter.name : Parameter → String
  | .continuous n _ _ => n
  | .discrete n _ => n
  | .categorical n _ => n

/-- Modelled from the spec: the encoded width of a parameter — 1 for
continuous and discrete, the number of categories for one-hot categorical. -/
def Parameter.width : Parameter → Nat
  | .continuous _ _ _ => 1
  | .discrete _ _ => 1
  | .categorical _ cats => cats.length

/-- Modelled from the spec: the one-hot indicator vector of width `n` whose
only 1-entry sits at index `i`. -/
def one_hot : Nat → Nat → List ℚ
  | 0, _ => []
  | n + 1, 0 => 1 :: List.replicate n 0
  | n + 1, i + 1 => 0 :: one_hot n i

/-- Index of the first entry equal to 1 in a numeric block, if any. -/
def findIdx1 : List ℚ → Option Nat
  | [] => none
  | q :: rest => if q = 1 then some 0 else (findIdx1 rest).map (· + 1)

/-- Index of a category label in the category list, if present. -/
def catIdx (cats : List String) (c : String) : Option Nat :=
  match cats with
  | [] => none
  | d :: rest => if d = c then some 0 else (catIdx rest c).map (· + 1)

/-- Modelled from the spec: one-hot `vector→category` decoding — requires an
entry exactly equal to 1 in the block and fails with `InvalidEncoding`
otherwise (also when the 1-entry's index names no category). -/
def get_category (cats : List String) (v : List ℚ) : Except EmukitError String :=
  match findIdx1 v with
  | none => .error .invalidEncoding
  | some i =>
    match cats.get? i with
    | some c => .ok c
    | none => .error .invalidEncoding

/-- Modelled from the spec: one-hot `category→vector` encoding — the
indicator vector of the category's index; `InvalidValue` if the label is not
among the categories. -/
def encode_category (cats : List String) (c : String) : Except EmukitError (List ℚ) :=
  match catIdx cats c with
  | some i => .ok (one_hot cats.length i)
  | none => .error .invalidValue

/-- Modelled from the spec: whether a named value is admissible for a
parameter (within bounds, in the discrete set, or a known category). -/
def Parameter.validValue : Parameter → ParamValue → Bool
  | .continuous _ lo hi, .num x => decide (lo ≤ x) && decide (x ≤ hi)
  | .discrete _ vals, .num x => vals.contains x
  | .categorical _ cats, .cat c => cats.contains c
  | _, _ => false

/-- Modelled from the spec: encode one parameter's named value as its vector
block; fails with `InvalidValue` when the value violates the parameter's
bounds or category set (eager boundary validation, never coerced). -/
def Parameter.encodeValue : Parameter → ParamValue → Except EmukitError (List ℚ)
  | .continuous _ lo hi, .num x =>
      if lo ≤ x ∧ x ≤ hi then .ok [x] else .error .invalidValue
  | .discrete _ vals, .num x =>
      if vals.contains x then .ok [x] else .error .invalidValue
  | .categorical _ cats, .cat c => encode_category cats c
  | _, _ => .error .invalidValue

/-- Modelled from the spec: decode one parameter's vector block back to a
named value; block width errors are `DimensionMismatch`, malformed one-hot
blocks are rejected by `get_category`. -/
def Parameter.decodeBlock : Parameter → List ℚ → Except EmukitError ParamValue
  | .continuous _ _ _, [x] => .ok (.num x)
  | .continuous _ _ _, _ => .error .dimensionMismatch
  | .discrete _ _, [x] => .ok (.num x)
  | .discrete _ _, _ => .error .dimensionMismatch
  | .categorical _ cats, b =>
      if b.length = cats.length then (get_category cats b).map .cat
      else .error .dimensionMismatch

/-- Modelled from the spec: a `ParameterSpace` is an ordered sequence of
parameters defining the search domain. -/
structure ParameterSpace where
  parameters : List Parameter
  deriving DecidableEq

/-- Sum of encoded widths of a list of parameters. -/
def widthSum (ps : List Parameter) : Nat := (ps.map Parameter.width).sum

/-- Modelled from the spec: total vector width = sum of each parameter's
encoded width. -/
def ParameterSpace.width (S : ParameterSpace) : Nat := widthSum S.parameters

/-- First value bound to a name in a named-value map (an association list). -/
def lookupName (v : List (String × ParamValue)) (n : String) : Option ParamValue :=
  match v with
  | [] => none
  | b :: rest => if b.1 = n then some b.2 else lookupName rest n

/-- Modelled from the spec: encode a named-value map against a parameter
list, parameter by parameter in space order; `InvalidValue` when a required
parameter is missing or a value is out of range. -/
def encodeParams : List Parameter → List (String × ParamValue) → Except EmukitError (List ℚ)
  | [], _ => .ok []
  | p :: ps, v =>
    match lookupName v p.name with
    | none => .error .invalidValue
    | some val => do
      let block ← p.encodeValue val
      let rest ← encodeParams ps v
      pure (block ++ rest)

/-- Modelled from the spec: decode a flat vector block-by-block into the
named-value map in space order. -/
def decodeParams : List Parameter → List ℚ → Except EmukitError (List (String × ParamValue))
  | [], [] => .ok []
  | [], _ :: _ => .error .dimensionMismatch
  | p :: ps, x => do
    let val ← p.decodeBlock (x.take p.width)
    let rest ← decodeParams ps (x.drop p.width)
    pure ((p.name, val) :: rest)

/-- Modelled from the spec: `encode(named_values) -> vector`. -/
def ParameterSpace.encode (S : ParameterSpace) (v : List (String × ParamValue)) :
    Except EmukitError (List ℚ) :=
  encodeParams S.parameters v

/-- Modelled from the spec: `decode(vector) -> named_values`, failing with
`DimensionMismatch` if the vector width differs from the total width. -/
def ParameterSpace.decode (S : ParameterSpace) (x : List ℚ) :
    Except EmukitError (List (String × ParamValue)) :=
  if x.length = S.width then decodeParams S.parameters x else .error .dimensionMismatch

/-- Modelled from the spec: `subspace_without(names)` returns a new space
omitting the listed parameters and fails with `UnknownParameter` if any name
is absent. -/
def ParameterSpace.subspace_without (S : ParameterSpace) (names : List String) :
    Except EmukitError ParameterSpace :=
  if names.all (fun n => S.parameters.any (fun p => p.name == n)) then
    .ok ⟨S.parameters.filter (fun p => !(names.contains p.name))⟩
  else .error .unknownParameter

/-- Modelled from the spec: `LoopState` is the ordered, append-only record of
evaluated inputs `X` and their observed outputs `Y`. -/
structure LoopState where
  X : List (List ℚ)
  Y : List (List ℚ)
  deriving DecidableEq

/-- Modelled from the spec: a `Context` maps a subset of parameter names to
fixed values, supplied per `run_loop` invocation. -/
abbrev Context : Type := List (String × ParamValue)

/-- First value a context fixes for a name, if any. -/
def lookupCtx (c : Context) (n : String) : Option ParamValue :=
  lookupName c n

/-- Error-propagating map over a list, collecting results in order. -/
def exMapM {α β : Type} (f : α → Except EmukitError β) : List α → Except EmukitError (List β)
  | [] => .ok []
  | a :: as => do
    let b ← f a
    let bs ← exMapM f as
    pure (b :: bs)

/-- Modelled from the spec: reconstitute a full-width vector from a reduced
(free-dimension) vector by splicing in the context's fixed values at their
original positions; context values are encoded (and validated) at the
boundary. -/
def spliceE (ps : List Parameter) (c : Context) (free : List ℚ) : Except EmukitError (List ℚ) :=
  match ps with
  | [] => .ok []
  | p :: rest =>
    match lookupCtx c p.name with
    | some val => do
      let block ← p.encodeValue val
      let tail ← spliceE rest c free
      pure (block ++ tail)
    | none => do
      let tail ← spliceE rest c (free.drop p.width)
      pure (free.take p.width ++ tail)

/-- Modelled from the spec: the `CandidateSelector` — derive the reduced
space via `subspace_without(context.keys())`, let the inner acquisition
optimizer `opt` (which hides the Model and AcquisitionFunction) produce a
batch of free-dimension vectors over it, then splice the context's fixed
values back into each to obtain full-width candidates. -/
def selectBatch (S : ParameterSpace) (opt : ParameterSpace → LoopState → List (List ℚ))
    (c : Context) (s : LoopState) : Except EmukitError (List (List ℚ)) := do
  let R ← S.subspace_without (c.map Prod.fst)
  exMapM (spliceE S.parameters c) (opt R s)

/-- Modelled from the spec: one `run_loop` invocation of the
`OptimizationLoop` under a `FixedIterationsStoppingCondition` counting the
iterations of the current run.  Each iteration selects a batch, evaluates the
external objective on it synchronously, and appends the batch to the
`LoopState` only when the evaluation fully succeeded; an objective failure
aborts the run all-or-nothing for that batch, surfacing the error, and
retains every previously committed batch.  The result carries the final
`LoopState`, the number of objective evaluations performed, and the surfaced
error, if any. -/
def run_loop (S : ParameterSpace) (opt : ParameterSpace → LoopState → List (List ℚ))
    (obj : List (List ℚ) → Except EmukitError (List (List ℚ))) (c : Context) :
    Nat → LoopState → LoopState × Nat × Option EmukitError
  | 0, s => (s, 0, none)
  | k + 1, s =>
    match selectBatch S opt c s with
    | .error e => (s, 0, some e)
    | .ok batch =>
      match obj batch with
      | .error e => (s, 1, some e)
      | .ok ys =>
        let r := run_loop S opt obj c k ⟨s.X ++ batch, s.Y ++ ys⟩
        (r.1, r.2.1 + 1, r.2.2)

/-- Iterate a loop invocation `n` times, threading the `LoopState` through
(the notebooks call `run_loop` repeatedly on the same loop object). -/
def runRepeat (step : LoopState → LoopState × Nat × Option EmukitError) :
    Nat → LoopState → LoopState
  | 0, s => s
  | n + 1, s => runRepeat step n (step s).1

instance {ε α : Type} [DecidableEq ε] [DecidableEq α] : DecidableEq (Except ε α) := fun a b =>
  match a, b with
  | .ok x, .ok y =>
    if h : x = y then .isTrue (by rw [h]) else .isFalse (fun hc => h (Except.ok.inj hc))
  | .error x, .error y =>
    if h : x = y then .isTrue (by rw [h]) else .isFalse (fun hc => h (Except.error.inj hc))
  | .ok _, .error _ => .isFalse (fun hc => Except.noConfusion hc)
  | .error _, .ok _ => .isFalse (fun hc => Except.noConfusion hc)

/-- The category labels of the Tensorflow notebook's categorical parameter. -/
def optimizers : List String := ["adam", "adagrad", "sgd"]

/-- The context-variables tutorial's parameter space:
`ParameterSpace([ContinuousParameter(x1,-5,10), ContinuousParameter(x2,0,15)])`. -/
def tutorial_space : ParameterSpace :=
  ⟨[.continuous ("x1") (-5) 10, .continuous ("x2") 0 15]⟩

/-- The context-variables tutorial's first context: `{x1: 0.3}` (the exact
rational `3/10` is written `mkRat 3 10`; `mkRat_three_ten` below equates it
with the decimal literal `0.3`). -/
def tutorial_context : Context := [(("x1"), ParamValue.num (mkRat 3 10))]

/-- The Tensorflow notebook's parameter space: a continuous dropout rate on
`[0.05, 0.95]` (written as the exact rationals `mkRat 1 20` and `mkRat 19 20`,
see `mkRat_one_twenty` and `mkRat_nineteen_twenty`) and a one-hot categorical
optimizer choice. -/
def tf_space : ParameterSpace :=
  ⟨[.continuous ("dropout_rate") (mkRat 1 20) (mkRat 19 20),
    .categorical ("optimizer") ["adam", "adagrad", "sgd"]]⟩

/-- The Tensorflow notebook's objective wrapper: for each input row, the
first coordinate is the dropout rate, the remaining block one-hot decodes to
the optimizer name, and the returned output is the negated accuracy of
`eval_model` — the comment in the notebook reads: Emukit minimizes, so we
need to revert accuracy.  `eval_model` is abstracted as a function `ev`. -/
def emukit_friendly_objective_function (ev : ℚ → String → ℚ) (input_rows : List (List ℚ)) :
    Except EmukitError (List (List ℚ)) :=
  exMapM (fun row =>
    match row with
    | [] => .error .dimensionMismatch
    | dropout_rate :: enc =>
      match get_category optimizers enc with
      | .ok c => .ok [-(1 * ev dropout_rate c)]
      | .error e => .error e) input_rows

theorem mkRat_three_ten : mkRat 3 10 = (0.3 : ℚ) := by
  rw [Rat.mkRat_eq_div]
  norm_num

theorem mkRat_one_twenty : mkRat 1 20 = (0.05 : ℚ) := by
  rw [Rat.mkRat_eq_div]
  norm_num

theorem mkRat_nineteen_twenty : mkRat 19 20 = (0.95 : ℚ) := by
  rw [Rat.mkRat_eq_div]
  norm_num

theorem one_hot_length (n i : Nat) : (one_hot n i).length = n := by
  induction n generalizing i with
  | zero => rfl
  | succ n ih =>
    cases i with
    | zero => simp [one_hot]
    | succ i => simp [one_hot, ih]

theorem findIdx1_one_hot (n i : Nat) (h : i < n) : findIdx1 (one_hot n i) = some i := by
  induction n generalizing i with
  | zero => omega
  | succ n ih =>
    cases i with
    | zero => simp [one_hot, findIdx1]
    | succ i =>
      have h1 : (0 : ℚ) ≠ 1 := by norm_num
      simp [one_hot, findIdx1, h1, ih i (by omega)]

theorem findIdx1_none (v : List ℚ) (h : ∀ q ∈ v, q ≠ 1) : findIdx1 v = none := by
  induction v with
  | nil => rfl
  | cons q rest ih =>
    have hq : q ≠ 1 := h q (by simp)
    simp [findIdx1, hq, ih (fun r hr => h r (by simp [hr]))]

theorem catIdx_mem (cats : List String) (c : String) (h : c ∈ cats) :
    ∃ i, ∃ hi : i < cats.length, catIdx cats c = some i ∧ cats[i] = c := by
  induction cats with
  | nil => simp at h
  | cons d rest ih =>
    by_cases hd : d = c
    · exact ⟨0, by simp, by simp [catIdx, hd], hd⟩
    · have hc : c ∈ rest := by
        rcases List.mem_cons.mp h with h1 | h1
        · exact absurd h1.symm hd
        · exact h1
      obtain ⟨i, hi, hidx, hget⟩ := ih hc
      exact ⟨i + 1, by simpa using Nat.succ_lt_succ hi, by simp [catIdx, hd, hidx], by simpa using hget⟩

theorem catIdx_get (cats : List String) (hnd : cats.Nodup) (i : Nat) (hi : i < cats.length) :
    catIdx cats cats[i] = some i := by
  induction cats generalizing i with
  | nil => simp at hi
  | cons d rest ih =>
    cases i with
    | zero => simp [catIdx]
    | succ i =>
      have hi2 : i < rest.length := by simpa using Nat.lt_of_succ_lt_succ hi
      have hmem : rest[i] ∈ rest := List.getElem_mem hi2
      have hd : d ≠ rest[i] := by
        intro he
        exact (List.nodup_cons.mp hnd).1 (he ▸ hmem)
      simp [catIdx, hd, ih (List.nodup_cons.mp hnd).2 i hi2]

theorem get_category_one_hot (cats : List String) (i : Nat) (hi : i < cats.length) :
    get_category cats (one_hot cats.length i) = .ok cats[i] := by
  simp [get_category, findIdx1_one_hot cats.length i hi, List.get?_eq_getElem?,
    List.getElem?_eq_getElem hi]

theorem decodeBlock_ok_length (p : Parameter) (b : List ℚ) (val : ParamValue)
    (h : p.decodeBlock b = .ok val) : b.length = p.width := by
  cases p with
  | continuous n lo hi =>
    match b with
    | [x] => rfl
    | [] => simp [Parameter.decodeBlock] at h
    | _ :: _ :: _ => simp [Parameter.decodeBlock] at h
  | discrete n vals =>
    match b with
    | [x] => rfl
    | [] => simp [Parameter.decodeBlock] at h
    | _ :: _ :: _ => simp [Parameter.decodeBlock] at h
  | categorical n cats =>
    by_cases hl : b.length = cats.length
    · exact hl
    · simp [Parameter.decodeBlock, hl] at h

theorem blockRoundTrip (p : Parameter) (val : ParamValue) (h : p.validValue val = true) :
    ∃ b, p.encodeValue val = .ok b ∧ b.length = p.width ∧ p.decodeBlock b = .ok val := by
  cases p with
  | continuous n lo hi =>
    cases val with
    | num x =>
      have hb : lo ≤ x ∧ x ≤ hi := by
        simpa [Parameter.validValue, Bool.and_eq_true, decide_eq_true_eq] using h
      exact ⟨[x], by simp [Parameter.encodeValue, hb], rfl, rfl⟩
    | cat c => simp [Parameter.validValue] at h
  | discrete n vals =>
    cases val with
    | num x =>
      have hb : x ∈ vals := by simpa [Parameter.validValue] using h
      exact ⟨[x], by simp [Parameter.encodeValue, hb], rfl, rfl⟩
    | cat c => simp [Parameter.validValue] at h
  | categorical n cats =>
    cases val with
    | num x => simp [Parameter.validValue] at h
    | cat c =>
      have hc : c ∈ cats := by simpa [Parameter.validValue] using h
      obtain ⟨i, hi, hidx, hget⟩ := catIdx_mem cats c hc
      refine ⟨one_hot cats.length i, ?_, one_hot_length cats.length i, ?_⟩
      · simp [Parameter.encodeValue, encode_category, hidx]
      · simp [Parameter.decodeBlock, one_hot_length, get_category_one_hot cats i hi,
          Except.map, hget]

theorem widthSum_cons (p : Parameter) (ps : List Parameter) :
    widthSum (p :: ps) = p.width + widthSum ps := by
  simp [widthSum]

theorem encodeParams_skip (ps : List Parameter) (b : String × ParamValue)
    (v : List (String × ParamValue)) (h : b.1 ∉ ps.map Parameter.name) :
    encodeParams ps (b :: v) = encodeParams ps v := by
  induction ps with
  | nil => rfl
  | cons p ps ih =>
    have hne : b.1 ≠ p.name := by
      intro he
      exact h (by simp [he])
    have ih2 := ih (fun hm => h (by simp [List.mem_cons]; exact Or.inr (by simpa using hm)))
    simp [encodeParams, lookupName, hne, ih2]

theorem encDecParams (ps : List Parameter) (v : List (String × ParamValue))
    (hnd : (ps.map Parameter.name).Nodup)
    (hkeys : v.map Prod.fst = ps.map Parameter.name)
    (hvals : ∀ pv ∈ ps.zip v, pv.1.validValue pv.2.2 = true) :
    ∃ x, encodeParams ps v = .ok x ∧ x.length = widthSum ps ∧ decodeParams ps x = .ok v := by
  induction ps generalizing v with
  | nil =>
    have hv : v = [] := by simpa using congrArg List.length hkeys
    subst hv
    exact ⟨[], rfl, rfl, rfl⟩
  | cons p ps ih =>
    match v with
    | [] => simp at hkeys
    | b :: v2 =>
      have hb1 : b.1 = p.name := by simpa using congrArg (fun l => l.head?) hkeys
      have hv2 : v2.map Prod.fst = ps.map Parameter.name := by simpa using congrArg (fun l => l.tail) hkeys
      have hvalhead : p.validValue b.2 = true := hvals (p, b) (by simp [List.zip])
      obtain ⟨block, hencb, hlenb, hdecb⟩ := blockRoundTrip p b.2 hvalhead
      have hnotin : b.1 ∉ ps.map Parameter.name := by
        rw [hb1]
        exact (List.nodup_cons.mp hnd).1
      have hskip := encodeParams_skip ps b v2 hnotin
      obtain ⟨x2, hx2enc, hx2len, hx2dec⟩ := ih v2 (List.nodup_cons.mp hnd).2 hv2
        (fun pv hpv => hvals pv (by simp [List.zip] at hpv ⊢; exact Or.inr hpv))
      refine ⟨block ++ x2, ?_, ?_, ?_⟩
      · simp [encodeParams, lookupName, hb1, hencb, hskip, hx2enc, Bind.bind, Except.bind, Pure.pure, Except.pure]
      · simp [widthSum_cons, hlenb, hx2len]
      · have htake : (block ++ x2).take p.width = block := by
          rw [← hlenb]
          exact List.take_left block x2
        have hdrop : (block ++ x2).drop p.width = x2 := by
          rw [← hlenb]
          exact List.drop_left block x2
        have hbfull : (p.name, b.2) = b := by
          rw [← hb1]
        simp [decodeParams, htake, hdrop, hdecb, hx2dec, hbfull, Bind.bind, Except.bind, Pure.pure, Except.pure]

theorem widthSum_filter (ps : List Parameter) (f : Parameter → Bool) :
    widthSum (ps.filter f) + widthSum (ps.filter (fun p => !(f p))) = widthSum ps := by
  induction ps with
  | nil => rfl
  | cons p ps ih =>
    by_cases hf : f p
    · simp [List.filter_cons, hf, widthSum_cons]
      omega
    · simp [List.filter_cons, hf, widthSum_cons]
      omega

theorem lookupName_eq_none (v : List (String × ParamValue)) (n : String)
    (h : n ∉ v.map Prod.fst) : lookupName v n = none := by
  induction v with
  | nil => rfl
  | cons b rest ih =>
    rw [List.map_cons] at h
    have hne : b.1 ≠ n := by
      intro he
      exact h (he ▸ List.mem_cons_self b.1 (rest.map Prod.fst))
    simp [lookupName, hne, ih (fun hm => h (List.mem_cons_of_mem b.1 hm))]

theorem lookupName_isSome (v : List (String × ParamValue)) (n : String)
    (h : n ∈ v.map Prod.fst) : ∃ val, lookupName v n = some val := by
  induction v with
  | nil => simp at h
  | cons b rest ih =>
    rw [List.map_cons] at h
    by_cases hb : b.1 = n
    · exact ⟨b.2, by simp [lookupName, hb]⟩
    · have hr : n ∈ rest.map Prod.fst := by
        rcases List.mem_cons.mp h with h1 | h1
        · exact absurd h1.symm hb
        · exact h1
      obtain ⟨val, hval⟩ := ih hr
      exact ⟨val, by simp [lookupName, hb, hval]⟩

theorem lookupName_of_nodup_mem (v : List (String × ParamValue)) (b : String × ParamValue)
    (hnd : (v.map Prod.fst).Nodup) (hmem : b ∈ v) : lookupName v b.1 = some b.2 := by
  induction v with
  | nil => simp at hmem
  | cons a rest ih =>
    rcases List.mem_cons.mp hmem with h1 | h1
    · subst h1
      simp [lookupName]
    · have hne : a.1 ≠ b.1 := by
        intro he
        have : b.1 ∈ rest.map Prod.fst := List.mem_map_of_mem Prod.fst h1
        exact (List.nodup_cons.mp hnd).1 (he ▸ this)
      simp [lookupName, hne, ih (List.nodup_cons.mp hnd).2 h1]

theorem exMapM_ok_length {α β : Type} (f : α → Except EmukitError β) (xs : List α)
    (ys : List β) (h : exMapM f xs = .ok ys) : ys.length = xs.length := by
  induction xs generalizing ys with
  | nil =>
    simp [exMapM] at h
    simp [← h]
  | cons a as ih =>
    match hf : f a with
    | .error e => simp [exMapM, hf, Bind.bind, Except.bind] at h
    | .ok b =>
      match hrest : exMapM f as with
      | .error e => simp [exMapM, hf, hrest, Bind.bind, Except.bind] at h
      | .ok bs =>
        have hy : ys = b :: bs := by
          simpa [exMapM, hf, hrest, Bind.bind, Except.bind, Pure.pure, Except.pure] using h.symm
        subst hy
        simp [ih bs hrest]

theorem exMapM_mem {α β : Type} (f : α → Except EmukitError β) (xs : List α)
    (ys : List β) (h : exMapM f xs = .ok ys) (y : β) (hy : y ∈ ys) :
    ∃ x ∈ xs, f x = .ok y := by
  induction xs generalizing ys with
  | nil =>
    simp [exMapM] at h
    subst h
    simp at hy
  | cons a as ih =>
    match hf : f a with
    | .error e => simp [exMapM, hf, Bind.bind, Except.bind] at h
    | .ok b =>
      match hrest : exMapM f as with
      | .error e => simp [exMapM, hf, hrest, Bind.bind, Except.bind] at h
      | .ok bs =>
        have hys : ys = b :: bs := by
          simpa [exMapM, hf, hrest, Bind.bind, Except.bind, Pure.pure, Except.pure] using h.symm
        subst hys
        rcases List.mem_cons.mp hy with h1 | h1
        · exact ⟨a, by simp, h1 ▸ hf⟩
        · obtain ⟨x, hx, hfx⟩ := ih bs hrest h1
          exact ⟨x, by simp [hx], hfx⟩

theorem exMapM_ok_of_all {α β : Type} (f : α → Except EmukitError β) (xs : List α)
    (h : ∀ x ∈ xs, ∃ y, f x = .ok y) :
    ∃ ys, exMapM f xs = .ok ys ∧ ys.length = xs.length := by
  induction xs with
  | nil => exact ⟨[], rfl, rfl⟩
  | cons a as ih =>
    obtain ⟨b, hb⟩ := h a (by simp)
    obtain ⟨bs, hbs, hlen⟩ := ih (fun x hx => h x (by simp [hx]))
    exact ⟨b :: bs, by simp [exMapM, hb, hbs, Bind.bind, Except.bind, Pure.pure, Except.pure],
      by simp [hlen]⟩

theorem spliceE_noctx (ps : List Parameter) (free : List ℚ) :
    ∃ x, spliceE ps [] free = .ok x := by
  induction ps generalizing free with
  | nil => exact ⟨[], rfl⟩
  | cons p rest ih =>
    obtain ⟨x, hx⟩ := ih (free.drop p.width)
    exact ⟨free.take p.width ++ x,
      by simp [spliceE, lookupCtx, lookupName, hx, Bind.bind, Except.bind, Pure.pure, Except.pure]⟩

theorem subspace_without_ok (S : ParameterSpace) (names : List String)
    (h : ∀ n ∈ names, ∃ p ∈ S.parameters, p.name = n) :
    S.subspace_without names =
      .ok ⟨S.parameters.filter (fun p => !(names.contains p.name))⟩ := by
  have hall : names.all (fun n => S.parameters.any (fun p => p.name == n)) = true := by
    simp only [List.all_eq_true, List.any_eq_true, beq_iff_eq]
    exact h
  simp [ParameterSpace.subspace_without, hall]

theorem subspace_without_err (S : ParameterSpace) (names : List String)
    (h : ∃ n ∈ names, ∀ p ∈ S.parameters, p.name ≠ n) :
    S.subspace_without names = .error .unknownParameter := by
  have hall : names.all (fun n => S.parameters.any (fun p => p.name == n)) = false := by
    obtain ⟨n, hn, hnone⟩ := h
    simp only [List.all_eq_false]
    refine ⟨n, hn, ?_⟩
    simp only [List.any_eq_true, beq_iff_eq, not_exists]
    intro p
    intro hand
    exact hnone p hand.1 hand.2
  simp [ParameterSpace.subspace_without, hall]

theorem take_width_append {α : Type} (w : Nat) (blk rest : List α) (h : blk.length = w) :
    (blk ++ rest).take w = blk := by
  rw [← h]
  exact List.take_left blk rest

theorem drop_width_append {α : Type} (w : Nat) (blk rest : List α) (h : blk.length = w) :
    (blk ++ rest).drop w = rest := by
  rw [← h]
  exact List.drop_left blk rest

theorem spliceE_decodeParams (c : Context) (ps : List Parameter) (free : List ℚ)
    (w : List (String × ParamValue))
    (hfree : decodeParams (ps.filter (fun p => !((c.map Prod.fst).contains p.name))) free = .ok w)
    (hval : ∀ p ∈ ps, ∀ val, lookupCtx c p.name = some val → p.validValue val = true) :
    ∃ x v, spliceE ps c free = .ok x ∧ x.length = widthSum ps ∧ decodeParams ps x = .ok v ∧
      v.map Prod.fst = ps.map Parameter.name ∧
      (∀ b ∈ v, ∀ val, lookupCtx c b.1 = some val → b.2 = val) := by
  induction ps generalizing free w with
  | nil => exact ⟨[], [], rfl, rfl, rfl, rfl, by simp⟩
  | cons p ps ih =>
    by_cases hmem : p.name ∈ c.map Prod.fst
    · obtain ⟨val, hlook⟩ := lookupName_isSome c p.name hmem
      have hvalp : p.validValue val = true := hval p (by simp) val hlook
      obtain ⟨block, hencb, hlenb, hdecb⟩ := blockRoundTrip p val hvalp
      have hfilter : (p :: ps).filter (fun q => !((c.map Prod.fst).contains q.name)) =
          ps.filter (fun q => !((c.map Prod.fst).contains q.name)) := by
        simp [List.filter_cons, hmem]
      rw [hfilter] at hfree
      obtain ⟨x2, v2, hx2, hlen2, hdec2, hkeys2, hctx2⟩ := ih free w hfree
        (fun q hq => hval q (by simp [hq]))
      refine ⟨block ++ x2, (p.name, val) :: v2, ?_, ?_, ?_, ?_, ?_⟩
      · simp [spliceE, lookupCtx, hlook, hencb, hx2, Bind.bind, Except.bind, Pure.pure,
          Except.pure]
      · simp [widthSum_cons, hlenb, hlen2]
      · have htake : (block ++ x2).take p.width = block := by
          rw [← hlenb]
          exact List.take_left block x2
        have hdrop : (block ++ x2).drop p.width = x2 := by
          rw [← hlenb]
          exact List.drop_left block x2
        simp [decodeParams, htake, hdrop, hdecb, hdec2, Bind.bind, Except.bind, Pure.pure,
          Except.pure]
      · simp [hkeys2]
      · intro b hb val2 hlook2
        rcases List.mem_cons.mp hb with h1 | h1
        · subst h1
          have h3 : lookupName c p.name = some val2 := hlook2
          rw [hlook] at h3
          exact Option.some.inj h3
        · exact hctx2 b h1 val2 hlook2
    · have hnone : lookupName c p.name = none := lookupName_eq_none c p.name hmem
      have hfilter : (p :: ps).filter (fun q => !((c.map Prod.fst).contains q.name)) =
          p :: ps.filter (fun q => !((c.map Prod.fst).contains q.name)) := by
        simp [List.filter_cons, hmem]
      rw [hfilter] at hfree
      cases hdb : p.decodeBlock (free.take p.width) with
      | error e =>
        simp only [decodeParams, hdb, Bind.bind, Except.bind] at hfree
        exact Except.noConfusion hfree
      | ok val0 =>
        cases hrest : decodeParams (ps.filter (fun q => !((c.map Prod.fst).contains q.name)))
            (free.drop p.width) with
        | error e =>
          simp only [decodeParams, hdb, hrest, Bind.bind, Except.bind] at hfree
          exact Except.noConfusion hfree
        | ok w2 =>
          obtain ⟨x2, v2, hx2, hlen2, hdec2, hkeys2, hctx2⟩ := ih (free.drop p.width) w2 hrest
            (fun q hq => hval q (by simp [hq]))
          have hlen0 : (free.take p.width).length = p.width :=
            decodeBlock_ok_length p (free.take p.width) val0 hdb
          refine ⟨free.take p.width ++ x2, (p.name, val0) :: v2, ?_, ?_, ?_, ?_, ?_⟩
          · simp [spliceE, lookupCtx, hnone, hx2, Bind.bind, Except.bind, Pure.pure, Except.pure]
          · simp [widthSum_cons, hlen0, hlen2]
          · have htake : (free.take p.width ++ x2).take p.width = free.take p.width :=
              take_width_append p.width (free.take p.width) x2 hlen0
            have hdrop : (free.take p.width ++ x2).drop p.width = x2 :=
              drop_width_append p.width (free.take p.width) x2 hlen0
            simp [decodeParams, htake, hdrop, hdb, hdec2, Bind.bind, Except.bind, Pure.pure,
              Except.pure]
          · simp [hkeys2]
          · intro b hb val2 hlook2
            rcases List.mem_cons.mp hb with h1 | h1
            · subst h1
              have h3 : lookupName c p.name = some val2 := hlook2
              rw [hnone] at h3
              exact Option.noConfusion h3
            · exact hctx2 b h1 val2 hlook2

theorem run_loop_X_take (S : ParameterSpace) (opt : ParameterSpace → LoopState → List (List ℚ))
    (obj : List (List ℚ) → Except EmukitError (List (List ℚ))) (c : Context) :
    ∀ (k : Nat) (s : LoopState),
      s.X.length ≤ (run_loop S opt obj c k s).1.X.length ∧
      ((run_loop S opt obj c k s).1.X).take s.X.length = s.X := by
  intro k
  induction k with
  | zero =>
    intro s
    exact ⟨Nat.le_refl _, List.take_length s.X⟩
  | succ k ih =>
    intro s
    cases hsel : selectBatch S opt c s with
    | error e => simp [run_loop, hsel, List.take_length]
    | ok batch =>
      cases hobj : obj batch with
      | error e => simp [run_loop, hsel, hobj, List.take_length]
      | ok ys =>
        have hstep : (run_loop S opt obj c (k + 1) s).1 =
            (run_loop S opt obj c k ⟨s.X ++ batch, s.Y ++ ys⟩).1 := by
          simp [run_loop, hsel, hobj]
        rw [hstep]
        obtain ⟨hle2, htk2⟩ := ih ⟨s.X ++ batch, s.Y ++ ys⟩
        have htk2b : ((run_loop S opt obj c k ⟨s.X ++ batch, s.Y ++ ys⟩).1.X).take
            (s.X ++ batch).length = s.X ++ batch := htk2
        have hle2b : (s.X ++ batch).length ≤
            (run_loop S opt obj c k ⟨s.X ++ batch, s.Y ++ ys⟩).1.X.length := hle2
        constructor
        · exact Nat.le_trans (by simp) hle2b
        · have hmin : min s.X.length (s.X ++ batch).length = s.X.length :=
            Nat.min_eq_left (by simp)
          have h3 := List.take_take s.X.length (s.X ++ batch).length
            ((run_loop S opt obj c k ⟨s.X ++ batch, s.Y ++ ys⟩).1.X)
          rw [hmin] at h3
          rw [← h3, htk2b]
          exact take_width_append s.X.length s.X batch rfl

theorem run_loop_mem (S : ParameterSpace) (opt : ParameterSpace → LoopState → List (List ℚ))
    (obj : List (List ℚ) → Except EmukitError (List (List ℚ))) (c : Context) :
    ∀ (k : Nat) (s : LoopState) (r : List ℚ), r ∈ (run_loop S opt obj c k s).1.X →
      r ∈ s.X ∨ ∃ (t : LoopState) (batch : List (List ℚ)),
        selectBatch S opt c t = .ok batch ∧ r ∈ batch := by
  intro k
  induction k with
  | zero =>
    intro s r hr
    exact Or.inl hr
  | succ k ih =>
    intro s r hr
    cases hsel : selectBatch S opt c s with
    | error e =>
      rw [show (run_loop S opt obj c (k + 1) s).1 = s by simp [run_loop, hsel]] at hr
      exact Or.inl hr
    | ok batch =>
      cases hobj : obj batch with
      | error e =>
        rw [show (run_loop S opt obj c (k + 1) s).1 = s by simp [run_loop, hsel, hobj]] at hr
        exact Or.inl hr
      | ok ys =>
        rw [show (run_loop S opt obj c (k + 1) s).1 =
            (run_loop S opt obj c k ⟨s.X ++ batch, s.Y ++ ys⟩).1 by
          simp [run_loop, hsel, hobj]] at hr
        rcases ih ⟨s.X ++ batch, s.Y ++ ys⟩ r hr with h1 | h1
        · rcases List.mem_append.mp h1 with h2 | h2
          · exact Or.inl h2
          · exact Or.inr ⟨s, batch, hsel, h2⟩
        · exact Or.inr h1

theorem run_loop_noctx_counts (S : ParameterSpace)
    (opt : ParameterSpace → LoopState → List (List ℚ))
    (obj : List (List ℚ) → Except EmukitError (List (List ℚ)))
    (hopt : ∀ R t, (opt R t).length = 1)
    (hobj : ∀ b, ∃ ys, obj b = .ok ys) :
    ∀ (k : Nat) (s : LoopState),
      (run_loop S opt obj [] k s).1.X.length = s.X.length + k ∧
      (run_loop S opt obj [] k s).2.1 = k ∧
      (run_loop S opt obj [] k s).2.2 = none := by
  intro k
  induction k with
  | zero =>
    intro s
    exact ⟨rfl, rfl, rfl⟩
  | succ k ih =>
    intro s
    have hsub : S.subspace_without [] =
        .ok ⟨S.parameters.filter (fun p => !(([] : List String).contains p.name))⟩ :=
      subspace_without_ok S [] (by simp)
    obtain ⟨batch, hbatch, hblen⟩ := exMapM_ok_of_all (spliceE S.parameters [])
      (opt ⟨S.parameters.filter (fun p => !(([] : List String).contains p.name))⟩ s)
      (fun free _ => spliceE_noctx S.parameters free)
    have hsel : selectBatch S opt [] s = .ok batch := by
      simp only [selectBatch]
      rw [show (List.map Prod.fst ([] : Context)) = ([] : List String) from rfl]
      rw [hsub]
      exact hbatch
    have hblen1 : batch.length = 1 := by
      rw [hblen]
      exact hopt _ _
    obtain ⟨ys, hys⟩ := hobj batch
    obtain ⟨ihlen, ihcount, iherr⟩ := ih ⟨s.X ++ batch, s.Y ++ ys⟩
    refine ⟨?_, ?_, ?_⟩
    · rw [show (run_loop S opt obj [] (k + 1) s).1 =
          (run_loop S opt obj [] k ⟨s.X ++ batch, s.Y ++ ys⟩).1 by
        simp [run_loop, hsel, hys]]
      rw [ihlen]
      simp [hblen1]
      omega
    · rw [show (run_loop S opt obj [] (k + 1) s).2.1 =
          (run_loop S opt obj [] k ⟨s.X ++ batch, s.Y ++ ys⟩).2.1 + 1 by
        simp [run_loop, hsel, hys]]
      rw [ihcount]
    · rw [show (run_loop S opt obj [] (k + 1) s).2.2 =
          (run_loop S opt obj [] k ⟨s.X ++ batch, s.Y ++ ys⟩).2.2 by
        simp [run_loop, hsel, hys]]
      exact iherr

theorem lookupName_mem (v : List (String × ParamValue)) (n : String) (val : ParamValue)
    (h : lookupName v n = some val) : (n, val) ∈ v := by
  induction v with
  | nil => exact Option.noConfusion h
  | cons b rest ih =>
    by_cases hb : b.1 = n
    · rw [lookupName, if_pos hb] at h
      have hv : val = b.2 := (Option.some.inj h).symm
      rw [hv, ← hb]
      exact List.mem_cons_self _ _
    · rw [lookupName, if_neg hb] at h
      exact List.mem_cons_of_mem b (ih h)

/-- C2: if the external objective raises on the batch selected in a run, the
loop aborts without appending any part of that batch — the `LoopState` after
the failed run equals the `LoopState` before it (so its length and all
previously recorded rows are unchanged) and the failure is surfaced. -/
theorem spec_c2 (S : ParameterSpace) (opt : ParameterSpace → LoopState → List (List ℚ))
    (obj : List (List ℚ) → Except EmukitError (List (List ℚ))) (c : Context) (k : Nat)
    (s : LoopState) (batch : List (List ℚ)) (e : EmukitError)
    (hsel : selectBatch S opt c s = .ok batch) (hobj : obj batch = .error e) :
    (run_loop S opt obj c (k + 1) s).1 = s ∧
    (run_loop S opt obj c (k + 1) s).1.X.length = s.X.length ∧
    (run_loop S opt obj c (k + 1) s).1.X = s.X ∧
    (run_loop S opt obj c (k + 1) s).2.2 = some e := by
  refine ⟨?_, ?_, ?_, ?_⟩ <;> simp [run_loop, hsel, hobj]

theorem spec_c2_witness :
    (run_loop ⟨[]⟩ (fun _ _ => [[]]) (fun _ => .error .objectiveEvaluationFailure) [] 5
      ⟨[[1]], [[2]]⟩).1 = ⟨[[1]], [[2]]⟩ ∧
    (run_loop ⟨[]⟩ (fun _ _ => [[]]) (fun _ => .error .objectiveEvaluationFailure) [] 5
      ⟨[[1]], [[2]]⟩).1.X.length = (⟨[[1]], [[2]]⟩ : LoopState).X.length ∧
    (run_loop ⟨[]⟩ (fun _ _ => [[]]) (fun _ => .error .objectiveEvaluationFailure) [] 5
      ⟨[[1]], [[2]]⟩).1.X = (⟨[[1]], [[2]]⟩ : LoopState).X ∧
    (run_loop ⟨[]⟩ (fun _ _ => [[]]) (fun _ => .error .objectiveEvaluationFailure) [] 5
      ⟨[[1]], [[2]]⟩).2.2 = some .objectiveEvaluationFailure :=
  spec_c2 ⟨[]⟩ (fun _ _ => [[]]) (fun _ => .error .objectiveEvaluationFailure) [] 4
    ⟨[[1]], [[2]]⟩ [[]] .objectiveEvaluationFailure (by decide) rfl

/-- C3: with a fixed-iterations stopping condition of 10 and batch size 1,
`run_loop` performs exactly 10 objective evaluations and appends exactly 10
rows to the `LoopState`, for every inner optimizer (Model/Acquisition choice)
and every total objective. -/
theorem spec_c3 (S : ParameterSpace) (opt : ParameterSpace → LoopState → List (List ℚ))
    (obj : List (List ℚ) → Except EmukitError (List (List ℚ))) (s : LoopState)
    (hopt : ∀ R t, (opt R t).length = 1)
    (hobj : ∀ b, ∃ ys, obj b = .ok ys) :
    (run_loop S opt obj [] 10 s).2.1 = 10 ∧
    (run_loop S opt obj [] 10 s).1.X.length = s.X.length + 10 ∧
    (run_loop S opt obj [] 10 s).2.2 = none := by
  obtain ⟨hlen, hcount, herr⟩ := run_loop_noctx_counts S opt obj hopt hobj 10 s
  exact ⟨hcount, hlen, herr⟩

theorem spec_c3_witness :
    (run_loop tutorial_space (fun _ _ => [[0, 0]])
      (fun b => .ok (b.map (fun _ => [0]))) [] 10 ⟨[], []⟩).2.1 = 10 ∧
    (run_loop tutorial_space (fun _ _ => [[0, 0]])
      (fun b => .ok (b.map (fun _ => [0]))) [] 10 ⟨[], []⟩).1.X.length =
      (⟨[], []⟩ : LoopState).X.length + 10 ∧
    (run_loop tutorial_space (fun _ _ => [[0, 0]])
      (fun b => .ok (b.map (fun _ => [0]))) [] 10 ⟨[], []⟩).2.2 = none :=
  spec_c3 tutorial_space (fun _ _ => [[0, 0]]) (fun b => .ok (b.map (fun _ => [0])))
    ⟨[], []⟩ (fun _ _ => rfl) (fun b => ⟨b.map (fun _ => [0]), rfl⟩)

/-- C4: `LoopState` is append-only across two consecutive `run_loop`
invocations with possibly different contexts — the length after the second
call is at least the length after the first, and the rows recorded at the
end of the first call are an unchanged prefix of the rows afterwards. -/
theorem spec_c4 (S : ParameterSpace) (opt : ParameterSpace → LoopState → List (List ℚ))
    (obj : List (List ℚ) → Except EmukitError (List (List ℚ))) (c1 c2 : Context)
    (k1 k2 : Nat) (s : LoopState) :
    (run_loop S opt obj c1 k1 s).1.X.length ≤
      (run_loop S opt obj c2 k2 (run_loop S opt obj c1 k1 s).1).1.X.length ∧
    ((run_loop S opt obj c2 k2 (run_loop S opt obj c1 k1 s).1).1.X).take
      (run_loop S opt obj c1 k1 s).1.X.length = (run_loop S opt obj c1 k1 s).1.X :=
  run_loop_X_take S opt obj c2 k2 (run_loop S opt obj c1 k1 s).1

/-- C5: for every named-value map that is valid over a parameter space with
uniquely named parameters — its keys are exactly the space's parameter names
in order and every value is within its parameter's bounds or category set —
decoding the encoding returns the map unchanged. -/
theorem spec_c5 (S : ParameterSpace) (v : List (String × ParamValue))
    (hwf : (S.parameters.map Parameter.name).Nodup)
    (hkeys : v.map Prod.fst = S.parameters.map Parameter.name)
    (hvals : ∀ pv ∈ S.parameters.zip v, pv.1.validValue pv.2.2 = true) :
    ∃ x, S.encode v = .ok x ∧ S.decode x = .ok v := by
  obtain ⟨x, henc, hlen, hdec⟩ := encDecParams S.parameters v hwf hkeys hvals
  refine ⟨x, henc, ?_⟩
  have hlen2 : x.length = S.width := hlen
  rw [ParameterSpace.decode, if_pos hlen2]
  exact hdec

theorem spec_c5_witness :
    ∃ x, tf_space.encode [(("dropout_rate"), ParamValue.num (mkRat 1 2)),
        (("optimizer"), ParamValue.cat ("adagrad"))] = .ok x ∧
      tf_space.decode x = .ok [(("dropout_rate"), ParamValue.num (mkRat 1 2)),
        (("optimizer"), ParamValue.cat ("adagrad"))] :=
  spec_c5 tf_space [(("dropout_rate"), ParamValue.num (mkRat 1 2)),
    (("optimizer"), ParamValue.cat ("adagrad"))] (by decide) (by decide) (by decide)

/-- C7: one-hot vector-to-category decoding fails with `InvalidEncoding` for
every input block in which no entry is exactly 1 — malformed vectors are
rejected, never coerced to some category. -/
theorem spec_c7 (cats : List String) (v : List ℚ) (h : ∀ q ∈ v, q ≠ 1) :
    get_category cats v = .error .invalidEncoding := by
  rw [get_category, findIdx1_none v h]

theorem spec_c7_witness :
    get_category ["A", "B", "C"] [0, mkRat 1 2, 0] = .error .invalidEncoding :=
  spec_c7 ["A", "B", "C"] [0, mkRat 1 2, 0] (by decide)

/-- C8: for names that all denote parameters of the space,
`subspace_without(names)` succeeds and the resulting space's total width is
the original total width minus the sum of the removed parameters' encoded
widths; if any listed name is absent, it fails with `UnknownParameter`. -/
theorem spec_c8 (S : ParameterSpace) (names : List String) :
    ((∀ n ∈ names, ∃ p ∈ S.parameters, p.name = n) →
      ∃ S2, S.subspace_without names = .ok S2 ∧
        S2.width = S.width -
          widthSum (S.parameters.filter (fun p => names.contains p.name))) ∧
    ((∃ n ∈ names, ∀ p ∈ S.parameters, p.name ≠ n) →
      S.subspace_without names = .error .unknownParameter) := by
  constructor
  · intro h
    refine ⟨⟨S.parameters.filter (fun p => !(names.contains p.name))⟩,
      subspace_without_ok S names h, ?_⟩
    have h2 : widthSum (S.parameters.filter (fun p => names.contains p.name)) +
        widthSum (S.parameters.filter (fun p => !(names.contains p.name))) =
        widthSum S.parameters := widthSum_filter S.parameters (fun p => names.contains p.name)
    show widthSum (S.parameters.filter (fun p => !(names.contains p.name))) =
        widthSum S.parameters -
          widthSum (S.parameters.filter (fun p => names.contains p.name))
    omega
  · exact subspace_without_err S names

theorem spec_c8_witness :
    (∃ S2, tf_space.subspace_without [("optimizer")] = .ok S2 ∧
      S2.width = tf_space.width -
        widthSum (tf_space.parameters.filter
          (fun p => (["optimizer"] : List String).contains p.name))) ∧
    tf_space.subspace_without [("unknown_name")] = .error .unknownParameter :=
  ⟨(spec_c8 tf_space [("optimizer")]).1 (by decide),
   (spec_c8 tf_space [("unknown_name")]).2 (by decide)⟩

/-- C9: the notebook's objective wrapper returns, for each row, the negated
`eval_model` accuracy (the notebook comments that Emukit minimizes, so the
score to be maximized is negated by the caller before being passed to
`run_loop`): the produced output is exactly `-1 *` the accuracy, and the
negation reverses the order, so lower objective outputs correspond exactly
to higher accuracies. -/
theorem spec_c9 (ev : ℚ → String → ℚ) (d1 d2 : ℚ) (e1 e2 : List ℚ) (c1 c2 : String)
    (h1 : get_category optimizers e1 = .ok c1)
    (h2 : get_category optimizers e2 = .ok c2) :
    emukit_friendly_objective_function ev [d1 :: e1] = .ok [[-(1 * ev d1 c1)]] ∧
    emukit_friendly_objective_function ev [d2 :: e2] = .ok [[-(1 * ev d2 c2)]] ∧
    (-(1 * ev d1 c1) < -(1 * ev d2 c2) ↔ ev d2 c2 < ev d1 c1) := by
  refine ⟨?_, ?_, ?_⟩
  · simp [emukit_friendly_objective_function, exMapM, h1, Bind.bind, Except.bind,
      Pure.pure, Except.pure]
  · simp [emukit_friendly_objective_function, exMapM, h2, Bind.bind, Except.bind,
      Pure.pure, Except.pure]
  · constructor
    · intro h
      linarith
    · intro h
      linarith

theorem spec_c9_witness :
    emukit_friendly_objective_function (fun d _ => d) [(1 : ℚ) :: [1, 0, 0]] =
      .ok [[-(1 * (1 : ℚ))]] ∧
    emukit_friendly_objective_function (fun d _ => d) [(0 : ℚ) :: [1, 0, 0]] =
      .ok [[-(1 * (0 : ℚ))]] ∧
    (-(1 * (1 : ℚ)) < -(1 * (0 : ℚ)) ↔ (0 : ℚ) < 1) :=
  spec_c9 (fun d _ => d) 1 0 [1, 0, 0] [1, 0, 0] ("adam") ("adam") (by decide) (by decide)

/-- C10: initial design rows seeded into the `LoopState` do not consume the
iteration budget, and the fixed-iterations counter restarts at every
`run_loop` invocation: with batch size 1 and a total objective, every call
appends exactly `k` rows to whatever `LoopState` it starts from, so `n`
consecutive calls on a loop seeded with `m` rows leave `m + n * k` rows. -/
theorem spec_c10 (S : ParameterSpace) (opt : ParameterSpace → LoopState → List (List ℚ))
    (obj : List (List ℚ) → Except EmukitError (List (List ℚ))) (s : LoopState) (n k : Nat)
    (hopt : ∀ R t, (opt R t).length = 1)
    (hobj : ∀ b, ∃ ys, obj b = .ok ys) :
    (∀ t : LoopState, (run_loop S opt obj [] k t).1.X.length = t.X.length + k) ∧
    (runRepeat (run_loop S opt obj [] k) n s).X.length = s.X.length + n * k := by
  have hone : ∀ t : LoopState, (run_loop S opt obj [] k t).1.X.length = t.X.length + k :=
    fun t => (run_loop_noctx_counts S opt obj hopt hobj k t).1
  refine ⟨hone, ?_⟩
  induction n generalizing s with
  | zero => simp [runRepeat]
  | succ n ih =>
    rw [runRepeat, ih ((run_loop S opt obj [] k s).1), hone s]
    ring

theorem spec_c10_witness :
    (∀ t : LoopState, (run_loop tutorial_space (fun _ _ => [[0, 0]])
      (fun b => .ok (b.map (fun _ => [0]))) [] 2 t).1.X.length = t.X.length + 2) ∧
    (runRepeat (run_loop tutorial_space (fun _ _ => [[0, 0]])
      (fun b => .ok (b.map (fun _ => [0]))) [] 2) 3
      ⟨[[5, 5], [6, 6]], [[0], [0]]⟩).X.length =
      (⟨[[5, 5], [6, 6]], [[0], [0]]⟩ : LoopState).X.length + 3 * 2 :=
  spec_c10 tutorial_space (fun _ _ => [[0, 0]]) (fun b => .ok (b.map (fun _ => [0])))
    ⟨[[5, 5], [6, 6]], [[0], [0]]⟩ 3 2 (fun _ _ => rfl) (fun b => ⟨b.map (fun _ => [0]), rfl⟩)

/-- C6: the one-hot encoding over the category list `[A, B, C]` encodes `A`
as `[1,0,0]`, `B` as `[0,1,0]`, `C` as `[0,0,1]`, and decodes `[0,1,0]` to
`B`; in general, over any duplicate-free category list the encoding is a
bijection between the categories and the indicator vectors of width equal to
the number of categories (encode and decode are mutually inverse). -/
theorem spec_c6 (cats : List String) (hnd : cats.Nodup) :
    (encode_category ["A", "B", "C"] ("A") = .ok [1, 0, 0] ∧
     encode_category ["A", "B", "C"] ("B") = .ok [0, 1, 0] ∧
     encode_category ["A", "B", "C"] ("C") = .ok [0, 0, 1] ∧
     get_category ["A", "B", "C"] [0, 1, 0] = .ok ("B")) ∧
    (∀ c ∈ cats, ∃ i, ∃ hi : i < cats.length,
       encode_category cats c = .ok (one_hot cats.length i) ∧
       get_category cats (one_hot cats.length i) = .ok c) ∧
    (∀ i, ∀ hi : i < cats.length,
       get_category cats (one_hot cats.length i) = .ok cats[i] ∧
       encode_category cats cats[i] = .ok (one_hot cats.length i)) := by
  refine ⟨⟨by decide, by decide, by decide, by decide⟩, ?_, ?_⟩
  · intro c hc
    obtain ⟨i, hi, hidx, hget⟩ := catIdx_mem cats c hc
    refine ⟨i, hi, ?_, ?_⟩
    · simp [encode_category, hidx]
    · rw [get_category_one_hot cats i hi, hget]
  · intro i hi
    refine ⟨get_category_one_hot cats i hi, ?_⟩
    simp [encode_category, catIdx_get cats hnd i hi]

theorem spec_c6_witness :
    (encode_category ["A", "B", "C"] ("A") = .ok [1, 0, 0] ∧
     encode_category ["A", "B", "C"] ("B") = .ok [0, 1, 0] ∧
     encode_category ["A", "B", "C"] ("C") = .ok [0, 0, 1] ∧
     get_category ["A", "B", "C"] [0, 1, 0] = .ok ("B")) ∧
    (∀ c ∈ (["A", "B", "C"] : List String), ∃ i,
       ∃ hi : i < (["A", "B", "C"] : List String).length,
       encode_category ["A", "B", "C"] c =
         .ok (one_hot (["A", "B", "C"] : List String).length i) ∧
       get_category ["A", "B", "C"] (one_hot (["A", "B", "C"] : List String).length i) =
         .ok c) ∧
    (∀ i, ∀ hi : i < (["A", "B", "C"] : List String).length,
       get_category ["A", "B", "C"] (one_hot (["A", "B", "C"] : List String).length i) =
         .ok (["A", "B", "C"] : List String)[i] ∧
       encode_category ["A", "B", "C"] (["A", "B", "C"] : List String)[i] =
         .ok (one_hot (["A", "B", "C"] : List String).length i)) :=
  spec_c6 ["A", "B", "C"] (by decide)

/-- C1: under a context whose keys name parameters of the space and whose
values are admissible, every row the loop records beyond the initial state —
every candidate produced under the context — decodes successfully and the
decoded map contains every binding of the context (the context's values are
carried exactly at the context's keys); the inner optimizer is only assumed
to emit vectors decodable over the reduced space, as §4.3 requires. -/
theorem spec_c1 (S : ParameterSpace) (c : Context)
    (opt : ParameterSpace → LoopState → List (List ℚ))
    (obj : List (List ℚ) → Except EmukitError (List (List ℚ))) (k : Nat) (s : LoopState)
    (hwf : (S.parameters.map Parameter.name).Nodup)
    (hck : (c.map Prod.fst).Nodup)
    (hcv : ∀ b ∈ c, ∃ p ∈ S.parameters, p.name = b.1 ∧ p.validValue b.2 = true)
    (hopt : ∀ t free, free ∈ opt
        ⟨S.parameters.filter (fun p => !((c.map Prod.fst).contains p.name))⟩ t →
      ∃ w, decodeParams (S.parameters.filter
        (fun p => !((c.map Prod.fst).contains p.name))) free = .ok w) :
    ∀ r ∈ (run_loop S opt obj c k s).1.X, r ∈ s.X ∨
      ∃ v, S.decode r = .ok v ∧ (∀ b ∈ c, b ∈ v) := by
  intro r hr
  rcases run_loop_mem S opt obj c k s r hr with hmem | ⟨t, batch, hsel, hrb⟩
  · exact Or.inl hmem
  · have hpres : ∀ n ∈ c.map Prod.fst, ∃ p ∈ S.parameters, p.name = n := by
      intro n hn
      obtain ⟨b, hb, hbn⟩ := List.mem_map.mp hn
      obtain ⟨p, hp, hpn, _⟩ := hcv b hb
      exact ⟨p, hp, by rw [hpn, hbn]⟩
    have hsub := subspace_without_ok S (c.map Prod.fst) hpres
    simp only [selectBatch, hsub, Bind.bind, Except.bind] at hsel
    obtain ⟨free, hfree, hsplice⟩ := exMapM_mem _ _ _ hsel r hrb
    obtain ⟨w, hw⟩ := hopt t free hfree
    have hval : ∀ p ∈ S.parameters, ∀ val, lookupCtx c p.name = some val →
        p.validValue val = true := by
      intro p hp val hlk
      have hmemc : (p.name, val) ∈ c := lookupName_mem c p.name val hlk
      obtain ⟨p2, hp2, hname, hvv⟩ := hcv (p.name, val) hmemc
      have hpe : p2 = p := List.inj_on_of_nodup_map hwf hp2 hp hname
      rw [← hpe]
      exact hvv
    obtain ⟨x, v, hx, hxlen, hdec, hkeys, hctx⟩ := spliceE_decodeParams c S.parameters free w hw hval
    have hxr : r = x := Except.ok.inj (hsplice.symm.trans hx)
    refine Or.inr ⟨v, ?_, ?_⟩
    · have hlen2 : r.length = S.width := by rw [hxr]; exact hxlen
      rw [ParameterSpace.decode, if_pos hlen2, hxr]
      exact hdec
    · intro b hb
      have hlkb : lookupCtx c b.1 = some b.2 := lookupName_of_nodup_mem c b hck hb
      obtain ⟨p, hp, hpn, _⟩ := hcv b hb
      have hb1 : b.1 ∈ v.map Prod.fst := by
        rw [hkeys, ← hpn]
        exact List.mem_map_of_mem Parameter.name hp
      obtain ⟨d, hd, hd1⟩ := List.mem_map.mp hb1
      have hd2 : d.2 = b.2 := hctx d hd b.2 (by rw [hd1]; exact hlkb)
      have hdb : d = b := Prod.ext hd1 hd2
      rw [← hdb]
      exact hd

theorem spec_c1_witness :
    (∀ r ∈ (run_loop tutorial_space (fun _ _ => [[7]])
        (fun b => .ok (b.map (fun _ => [0]))) tutorial_context 10 ⟨[], []⟩).1.X,
      r ∈ (⟨[], []⟩ : LoopState).X ∨
        ∃ v, tutorial_space.decode r = .ok v ∧ (∀ b ∈ tutorial_context, b ∈ v)) ∧
    (run_loop tutorial_space (fun _ _ => [[7]])
      (fun b => .ok (b.map (fun _ => [0]))) tutorial_context 10 ⟨[], []⟩).1.X.length = 10 ∧
    (∀ r ∈ (run_loop tutorial_space (fun _ _ => [[7]])
        (fun b => .ok (b.map (fun _ => [0]))) tutorial_context 10 ⟨[], []⟩).1.X,
      r.head? = some (mkRat 3 10)) ∧
    mkRat 3 10 = (0.3 : ℚ) :=
  ⟨spec_c1 tutorial_space tutorial_context (fun _ _ => [[7]])
      (fun b => .ok (b.map (fun _ => [0]))) 10 ⟨[], []⟩ (by decide) (by decide) (by decide)
      (by
        intro t free hfree
        simp at hfree
        subst hfree
        exact ⟨[(("x2"), ParamValue.num 7)], by decide⟩),
    by decide, by decide, mkRat_three_ten⟩
